import Mathlib

/-!
Verification of the pdf2audio text pipeline.

Python strings are modelled as `List Char`; Python `len`, slicing, `strip`,
`split`, `splitlines`, truthiness (`if s:`) become the corresponding list
operations.  The regular expressions used by the source are modelled over the
ASCII interpretations of the character classes involved (`\s`, `\d`, `\S`).

Embedded source functions:
  * `chunk_text`                              (tts_providers.py, lines 13-60;
     the package module pdf2audio/tts_providers.py re-exports the same
     function, and scripts/dry_run.py repeats the identical algorithm)
  * `chunk_text_paragraph_sentence_word`      (pdf2audio/processors.py, 351-403)
  * `preclean_text`                           (pdf2audio/processors.py, 406-442)
  * `validate_speaking_rate`                  (tts_providers.py, 63-67)
  * `TextToSpeechProcessor.synthesize`        (pdf2audio/processors.py, 207-249),
     with the provider dispatch abstracted as the terminal outcome
  * the CLI validation phase of `main`        (pdf2audio/cli.py, 130-149)
-/

/-- Characters of a string literal; used to write concrete inputs. -/
def S (s : String) : List Char := s.data

/-- Python `str.isspace` membership for the ASCII whitespace characters that
`str.strip` / `str.split()` treat as separators. -/
def pyIsSpace (c : Char) : Bool :=
  c = ' ' || c = '\t' || c = '\n' || c = '\r' || c = Char.ofNat 11 || c = Char.ofNat 12

/-- Python `str.strip()`: drop whitespace from both ends. -/
def pyStrip (l : List Char) : List Char :=
  ((l.dropWhile pyIsSpace).reverse.dropWhile pyIsSpace).reverse

/-- Python `str.split(sep)` for a one-character separator, keeping empty
fragments (so `"".split('.') = ['']`). -/
def splitOnP (p : Char → Bool) : List Char → List (List Char)
  | [] => [[]]
  | c :: rest =>
    let r := splitOnP p rest
    if p c then [] :: r
    else
      match r with
      | [] => [[c]]
      | h :: t => (c :: h) :: t

/-- Python `str.split()` with no argument: split on whitespace runs and drop
the empty fragments. -/
def pyWords (l : List Char) : List (List Char) :=
  (splitOnP pyIsSpace l).filter (fun w => w ≠ [])

/-- `text.replace('!', '.').replace('?', '.')` from `chunk_text`. -/
def normalizeSent (l : List Char) : List Char :=
  (l.map (fun c => if c = '!' then '.' else c)).map (fun c => if c = '?' then '.' else c)

/-- `sentences = text.replace('!', '.').replace('?', '.').split('.')`. -/
def sentencesOfRaw (text : List Char) : List (List Char) :=
  splitOnP (fun c => c = '.') (normalizeSent text)

/-- Body of `chunk_text`'s inner word loop (tts_providers.py lines 41-51):
state is `(chunks, temp_chunk)`. -/
def wordStep (maxLength : Nat) (st : List (List Char) × List Char) (w : List Char) :
    List (List Char) × List Char :=
  if st.2.length + w.length + 1 > maxLength then
    if st.2 = [] then (st.1 ++ [w.take maxLength], w.drop maxLength)
    else (st.1 ++ [pyStrip st.2], w)
  else (st.1, if st.2 = [] then w else st.2 ++ ' ' :: w)

/-- Body of `chunk_text`'s sentence loop (tts_providers.py lines 24-55):
state is `(chunks, current_chunk)`.  When the word loop ends, Python runs
`if temp_chunk: current_chunk = temp_chunk`; since `current_chunk` is empty
on entry to that branch, this equals taking `temp_chunk` as the new current
chunk unconditionally. -/
def sentStep (maxLength : Nat) (st : List (List Char) × List Char) (raw : List Char) :
    List (List Char) × List Char :=
  if pyStrip raw = [] then st
  else
    let s := pyStrip raw ++ ['.']
    if st.2.length + s.length > maxLength then
      if st.2 = [] then (pyWords s).foldl (wordStep maxLength) (st.1, [])
      else (st.1 ++ [pyStrip st.2], s)
    else (st.1, if st.2 = [] then s else st.2 ++ ' ' :: s)

/-- Final `if current_chunk: chunks.append(current_chunk.strip())`
(tts_providers.py lines 57-58). -/
def sentFinish (st : List (List Char) × List Char) : List (List Char) :=
  if st.2 = [] then st.1 else st.1 ++ [pyStrip st.2]

/-- `chunk_text(text, max_length)` from src/tts_providers.py lines 13-60. -/
def chunk_text (text : List Char) (maxLength : Nat) : List (List Char) :=
  if text.length ≤ maxLength then [text]
  else sentFinish ((sentencesOfRaw text).foldl (sentStep maxLength) ([], []))

/-- The normalized sentences that `chunk_text`'s loop actually packs: each raw
fragment stripped, empties dropped, and the period re-appended. -/
def procSentences (rs : List (List Char)) : List (List Char) :=
  ((rs.map pyStrip).filter (fun x => x ≠ [])).map (fun x => x ++ ['.'])

/-- All nonempty stripped sentences of a text, '.'-terminated, in order. -/
def fullSentences (text : List Char) : List (List Char) :=
  procSentences (sentencesOfRaw text)

/-- Join a chunk list with single spaces (used to state content preservation). -/
def joinSp : List (List Char) → List Char
  | [] => []
  | [x] => x
  | x :: xs => x ++ ' ' :: joinSp xs

/-- Split at a regex match of `\n\s*\n+` (processors.py line 363): a match
starts at a newline whose maximal following whitespace run contains another
newline, and — by greedy `\s*` with backtracking for `\n+` — extends to the
end of the last newline run inside that whitespace run.  Trailing non-newline
whitespace of the run opens the next fragment.  Fuel is the remaining length
(each step consumes at least one character). -/
def paraSplitGo : Nat → List Char → List Char → List (List Char)
  | _, acc, [] => [acc.reverse]
  | 0, acc, l => [acc.reverse ++ l]
  | fuel + 1, acc, c :: rest =>
    if c = '\n' ∧ '\n' ∈ (((c :: rest).takeWhile pyIsSpace).drop 1) then
      let run := (c :: rest).takeWhile pyIsSpace
      let post := (run.reverse.takeWhile (fun x => x ≠ '\n')).reverse
      acc.reverse :: paraSplitGo fuel [] (post ++ (c :: rest).dropWhile pyIsSpace)
    else paraSplitGo fuel (c :: acc) rest

/-- `re.split(r"\n\s*\n+", text)` (processors.py line 363). -/
def paraSplit (text : List Char) : List (List Char) :=
  paraSplitGo text.length [] text

/-- Body of the paragraph loop of `chunk_text_paragraph_sentence_word`
(processors.py lines 368-398); state is `(chunks, current)`.  When the
paragraph is too large it is split by `pack_sentence_word`, i.e. `chunk_text`.
On an empty `pchunks`, Python's `pchunks[0]` would raise `IndexError`; the
model returns the empty chunk instead (that corner is avoided by every
theorem below). -/
def paraStep (maxLength : Nat) (st : List (List Char) × List Char) (rawPara : List Char) :
    List (List Char) × List Char :=
  let para := pyStrip rawPara
  if para = [] then st
  else
    let sep : List Char := if st.2 = [] then [] else ['\n', '\n']
    if st.2 ≠ [] ∧ st.2.length + sep.length + para.length ≤ maxLength then
      (st.1, st.2 ++ sep ++ para)
    else if para.length ≤ maxLength ∧ st.2 = [] then
      (st.1, para)
    else
      let pchunks := chunk_text para maxLength
      let base := if st.2 = [] then st.1 else st.1 ++ [st.2]
      if 1 < pchunks.length then (base ++ pchunks.dropLast, (pchunks.getLast?).getD [])
      else (base, pchunks.headD [])

/-- `chunk_text_paragraph_sentence_word(text, max_length)` from
pdf2audio/processors.py lines 351-403.  The final step is
`if current: chunks.append(current)` (no strip). -/
def chunk_text_paragraph_sentence_word (text : List Char) (maxLength : Nat) :
    List (List Char) :=
  if text.length ≤ maxLength then [text]
  else
    let st := (paraSplit text).foldl (paraStep maxLength) ([], [])
    if st.2 = [] then st.1 else st.1 ++ [st.2]

/-- The ASCII line-boundary characters of Python `str.splitlines`
(plus the three Unicode ones); `\r\n` counts as a single boundary. -/
def pyLineBreak (c : Char) : Bool :=
  c = '\n' || c = '\r' || c = Char.ofNat 11 || c = Char.ofNat 12 ||
  c = Char.ofNat 28 || c = Char.ofNat 29 || c = Char.ofNat 30 ||
  c = Char.ofNat 133 || c = Char.ofNat 8232 || c = Char.ofNat 8233

/-- Worker for `str.splitlines`: `cur` holds the current line reversed; the
pair `\r\n` counts as one boundary (the following `\n` is skipped).  Fuel is
the remaining length; each step consumes at least one character, so
`slGo text.length [] text` never reaches the exhaustion arm. -/
def slGo : Nat → List Char → List Char → List (List Char)
  | _, cur, [] => if cur = [] then [] else [cur.reverse]
  | 0, cur, l => [cur.reverse ++ l]
  | fuel + 1, cur, c :: rest =>
    if pyLineBreak c then
      cur.reverse ::
        slGo fuel [] (if c = '\r' ∧ rest.head? = some '\n' then rest.tail else rest)
    else slGo fuel (c :: cur) rest

/-- Python `text.splitlines()` (no final empty line for a trailing newline). -/
def pySplitlines (text : List Char) : List (List Char) :=
  slGo text.length [] text

/-- Lowercasing used for `low = stripped.lower()`. -/
def toLowerL (l : List Char) : List Char := l.map Char.toLower

/-- `re.match(r"^(page\s+\d+(\s+of\s+\d+)?)$", low)` as a full-string test
(processors.py line 432), with `\s`/`\d` read over ASCII. -/
def matchPageNum (l : List Char) : Bool :=
  match l with
  | 'p' :: 'a' :: 'g' :: 'e' :: rest =>
    let r1 := rest.dropWhile pyIsSpace
    if rest.takeWhile pyIsSpace = [] then false
    else
      let r2 := r1.dropWhile Char.isDigit
      if r1.takeWhile Char.isDigit = [] then false
      else if r2 = [] then true
      else
        let r3 := r2.dropWhile pyIsSpace
        if r2.takeWhile pyIsSpace = [] then false
        else
          match r3 with
          | 'o' :: 'f' :: r4 =>
            let r5 := r4.dropWhile pyIsSpace
            if r4.takeWhile pyIsSpace = [] then false
            else decide (r5.takeWhile Char.isDigit ≠ [] ∧ r5.dropWhile Char.isDigit = [])
          | _ => false
  | _ => false

/-- `re.match(r"^\d+$", stripped)` (processors.py line 434). -/
def matchAllDigits (l : List Char) : Bool :=
  decide (l ≠ []) && l.all Char.isDigit

/-- `re.match(r"^https?://\S+$", stripped)` (processors.py line 437). -/
def matchUrl (l : List Char) : Bool :=
  match l with
  | 'h' :: 't' :: 't' :: 'p' :: rest =>
    let rest2 := match rest with | 's' :: r => r | r => r
    match rest2 with
    | ':' :: '/' :: '/' :: r => decide (r ≠ []) && r.all (fun c => !pyIsSpace c)
    | _ => false
  | _ => false

/-- `freq = Counter([ln for ln in norm if ln]); freq.get(s, 0)`
(processors.py lines 417-418, 427). -/
def lineFreqCount (norm : List (List Char)) (s : List Char) : Nat :=
  (norm.filter (fun x => x ≠ [])).count s

/-- One iteration of the line loop of `preclean_text` (processors.py lines
421-440): `some []` keeps a blank line as `""`, `none` drops the line,
`some original` keeps it verbatim. -/
def keepDecision (norm : List (List Char)) (minRepeats maxLineLen : Nat)
    (original : List Char) : Option (List Char) :=
  if pyStrip original = [] then some []
  else if (pyStrip original).length ≤ maxLineLen ∧
      minRepeats ≤ lineFreqCount norm (pyStrip original) then none
  else if matchPageNum (toLowerL (pyStrip original)) then none
  else if matchAllDigits (pyStrip original) then none
  else if matchUrl (pyStrip original) then none
  else some original

/-- The list `out` built by `preclean_text` before the final join.  Python
iterates `zip(lines, norm)` with `norm[i] = lines[i].strip()`; recomputing the
strip inside `keepDecision` is the same computation. -/
def precleanLines (text : List Char) (minRepeats maxLineLen : Nat) : List (List Char) :=
  let lines := pySplitlines text
  lines.filterMap (keepDecision (lines.map pyStrip) minRepeats maxLineLen)

/-- Python `"\n".join(out)`. -/
def joinNL : List (List Char) → List Char
  | [] => []
  | [l] => l
  | l :: ls => l ++ '\n' :: joinNL ls

/-- `preclean_text(text, min_repeats, max_line_len)` from
pdf2audio/processors.py lines 406-442 (source defaults: 3 and 80). -/
def preclean_text (text : List Char) (minRepeats maxLineLen : Nat) : List Char :=
  joinNL (precleanLines text minRepeats maxLineLen)

/-- `validate_speaking_rate(speaking_rate)` from tts_providers.py lines 63-67.
The rate is modelled as a rational; the source compares a float against the
exactly representable constants 0.25 and 2.0, so the comparisons agree. -/
def validate_speaking_rate (rate : ℚ) : Except (List Char) ℚ :=
  if rate < 1/4 ∨ 2 < rate then
    Except.error (S ("speaking_rate must be in range [0.25, 2.0]"))
  else Except.ok rate

/-- Terminal outcome of `TextToSpeechProcessor.synthesize`: which error is
raised, or the provider call `self.provider.synthesize(chunks, …, lang_code)`
that performs the per-chunk synthesis. -/
inductive SynthOutcome
  | emptyTextError : SynthOutcome
  | invalidRateError : SynthOutcome
  | providerCalled (langCode : List Char) (chunks : List (List Char)) : SynthOutcome
deriving DecidableEq

/-- `TextToSpeechProcessor.synthesize` (pdf2audio/processors.py lines 207-249):
raise on an empty chunk list; pick `language or config.default_language`
(an empty string is falsy in Python) and apply the language mapping; validate
the speaking rate when it is not 1.0; then call the provider. -/
def TextToSpeechProcessor.synthesize (chunks : List (List Char))
    (language : Option (List Char)) (defaultLanguage : List Char)
    (langMap : List Char → List Char) (speakingRate : ℚ) : SynthOutcome :=
  if chunks = [] then SynthOutcome.emptyTextError
  else
    let langCode :=
      langMap (match language with
               | none => defaultLanguage
               | some l => if l = [] then defaultLanguage else l)
    if speakingRate ≠ 1 then
      match validate_speaking_rate speakingRate with
      | Except.error _ => SynthOutcome.invalidRateError
      | Except.ok _ => SynthOutcome.providerCalled langCode chunks
    else SynthOutcome.providerCalled langCode chunks

/-- The CLI arguments consulted by the validation phase of `main`
(pdf2audio/cli.py). -/
structure CliArgs where
  pdf : Option (List Char)
  mp3 : Option (List Char)
  job : Option (List Char)
  summarize : Bool
  no_llm : Bool
  cleaner_llm : Option (List Char)

/-- `validate_arguments(args)` (cli.py lines 110-127); the filesystem checks
`Path(args.pdf).exists()` / `Path(args.job).exists()` are abstracted as the
boolean parameters. -/
def validate_arguments (pdfExists jobExists : Bool) (args : CliArgs) : Bool :=
  if args.job = none then
    if args.pdf = none ∨ args.mp3 = none then false
    else pdfExists
  else jobExists

/-- The validation phase of `main` (cli.py lines 140-149): exit 1 when
`validate_arguments` fails; then, when the literal flag `--summarize` is in
`sys.argv` and `args.summarize` is set, exit 1 if `--no-llm` was given or no
`--cleaner-llm` was given.  `Except.ok` means control reaches the body that
later performs PDF text extraction (cli.py line 227). -/
def cliValidationPhase (pdfExists jobExists argvHasSummarizeFlag : Bool)
    (args : CliArgs) : Except Nat Unit :=
  if validate_arguments pdfExists jobExists args = false then Except.error 1
  else if argvHasSummarizeFlag = true ∧ args.summarize = true then
    if args.no_llm = true then Except.error 1
    else if args.cleaner_llm = none then Except.error 1
    else Except.ok ()
  else Except.ok ()

/-- Boolean test that `pat` is a contiguous segment of `l`. -/
def segAt : List Char → List Char → Bool
  | [], _ => true
  | _ :: _, [] => false
  | p :: ps, c :: cs => p = c && segAt ps cs

/-- `pat` occurs contiguously somewhere in `l`. -/
def hasSegment (pat : List Char) : List Char → Bool
  | [] => segAt pat []
  | c :: rest => segAt pat (c :: rest) || hasSegment pat rest

/-! ## Claim theorems -/

/-- C3: when the text already fits (`len(text) <= max_length`), both
`chunk_text` and `chunk_text_paragraph_sentence_word` return the one-element
list holding the unchanged text. -/
theorem chunk_identity_small_input :
    ∀ (text : List Char) (maxLength : Nat), text.length ≤ maxLength →
      chunk_text text maxLength = [text] ∧
      chunk_text_paragraph_sentence_word text maxLength = [text] := by
  intro t L h
  exact ⟨by simp [chunk_text, h], by simp [chunk_text_paragraph_sentence_word, h]⟩

/-- Witness for C3 at a concrete input. -/
theorem chunk_identity_small_input_witness :
    chunk_text (S ("tiny text")) 20 = [S ("tiny text")] ∧
    chunk_text_paragraph_sentence_word (S ("tiny text")) 20 = [S ("tiny text")] :=
  chunk_identity_small_input (S ("tiny text")) 20 (by decide)

/-- C4 counterexample: `chunk_text("A. B. C.", 4)` does not return
`["A.", "B.", "C."]`. -/
theorem chunk_scenario_abc_cex :
    chunk_text (S ("A. B. C.")) 4 ≠ [S ("A."), S ("B."), S ("C.")] := by decide

/-- C4 amended: `chunk_text("A. B. C.", 4)` returns `["A. B.", "C."]` — the
greedy size test omits the joining space, so `"A."` and `"B."` are packed
into one 5-character chunk. -/
theorem chunk_scenario_abc_amended :
    chunk_text (S ("A. B. C.")) 4 = [S ("A. B."), S ("C.")] := by decide

/-- C1 counterexample: for `"aa. b."` with `max_length = 5`, every
whitespace-delimited word fits in 5 characters (so no forced word split can
occur), yet the single returned chunk has length 6 > 5. -/
theorem chunk_len_bound_cex :
    chunk_text (S ("aa. b.")) 5 = [S ("aa. b.")] ∧
    (S ("aa. b.")).length = 6 ∧
    (∀ w ∈ pyWords (S ("aa. b.")), w.length ≤ 5) := by decide

/-- C2 counterexample: `chunk_text_paragraph_sentence_word("Hi! Yo.", 5)`
returns `["Hi.", "Yo."]`; the `'!'` of the input appears in no chunk, so no
re-joining of the chunks (whatever separators are ignored) reproduces the
input text. -/
theorem chunk_roundtrip_cex :
    chunk_text_paragraph_sentence_word (S ("Hi! Yo.")) 5 = [S ("Hi."), S ("Yo.")] ∧
    '!' ∈ S ("Hi! Yo.") ∧
    (∀ c ∈ chunk_text_paragraph_sentence_word (S ("Hi! Yo.")) 5, '!' ∉ c) := by decide

/-- C5 counterexample.  First input: in `chunk_text("aa WWWWWWWWWW.", 6)` the
word `"WWWWWWWWWW."` is longer than `max_length = 6` but is returned whole as
a single chunk — it is not force-split.  Second input: in
`chunk_text("aaaa 3.14 bbbb", 6)` every word fits in 6 characters, yet the
word `"3.14"` appears contiguously in no chunk — the sentence split on `'.'`
put a chunk boundary inside it. -/
theorem word_split_policy_cex :
    (chunk_text (S ("aa WWWWWWWWWW.")) 6 = [S ("aa"), S ("WWWWWWWWWW.")] ∧
     S ("WWWWWWWWWW.") ∈ pyWords (S ("aa WWWWWWWWWW.")) ∧
     6 < (S ("WWWWWWWWWW.")).length) ∧
    (chunk_text (S ("aaaa 3.14 bbbb")) 6 = [S ("aaaa"), S ("3."), S ("14 bbbb.")] ∧
     S ("3.14") ∈ pyWords (S ("aaaa 3.14 bbbb")) ∧
     (∀ w ∈ pyWords (S ("aaaa 3.14 bbbb")), w.length ≤ 6) ∧
     (chunk_text (S ("aaaa 3.14 bbbb")) 6).all (fun c => !hasSegment (S ("3.14")) c) = true) := by
  decide

/-- C6 counterexample: `preclean_text` is not idempotent — on `"a\n\n"` the
first pass yields `"a\n"` and a second pass yields `"a"` (the `splitlines` /
`"\n".join` round trip drops the trailing blank line). -/
theorem preclean_idempotent_cex :
    preclean_text (S ("a\n\n")) 3 80 = S ("a\n") ∧
    preclean_text (preclean_text (S ("a\n\n")) 3 80) 3 80 = S ("a") ∧
    preclean_text (preclean_text (S ("a\n\n")) 3 80) 3 80 ≠ preclean_text (S ("a\n\n")) 3 80 := by
  decide

/-- C8: whenever the literal `--summarize` flag is on the command line (so
`args.summarize` is set) together with `--no-llm`, the CLI validation phase
terminates with exit code 1 — before control ever reaches the extraction
code — regardless of the filesystem checks' outcomes. -/
theorem cli_summarize_no_llm_fatal :
    ∀ (pdfExists jobExists : Bool) (args : CliArgs),
      args.summarize = true → args.no_llm = true →
      cliValidationPhase pdfExists jobExists true args = Except.error 1 := by
  intro pe je args hs hn
  simp only [cliValidationPhase, hs, hn]
  split <;> simp

/-- Witness for C8 at concrete arguments. -/
theorem cli_summarize_no_llm_fatal_witness :
    cliValidationPhase true true true
      ⟨some (S ("doc.pdf")), some (S ("out.mp3")), none, true, true, none⟩ =
      Except.error 1 :=
  cli_summarize_no_llm_fatal true true _ rfl rfl

/-- C9: `validate_speaking_rate` succeeds exactly on the closed interval
`[0.25, 2.0]` (so it raises iff the rate is strictly below 0.25 or strictly
above 2.0); and in `TextToSpeechProcessor.synthesize`, an out-of-range rate
different from 1.0 yields the rate error, never the provider call — no
per-chunk synthesis happens. -/
theorem speaking_rate_validation_spec :
    ∀ rate : ℚ,
      ((∃ q, validate_speaking_rate rate = Except.ok q) ↔ 1/4 ≤ rate ∧ rate ≤ 2) ∧
      (∀ (chunks : List (List Char)) (language : Option (List Char))
          (defaultLanguage : List Char) (langMap : List Char → List Char),
          chunks ≠ [] → rate ≠ 1 → (rate < 1/4 ∨ 2 < rate) →
          TextToSpeechProcessor.synthesize chunks language defaultLanguage langMap rate =
            SynthOutcome.invalidRateError) := by
  intro rate
  constructor
  · constructor
    · rintro ⟨q, hq⟩
      unfold validate_speaking_rate at hq
      split at hq
      · exact absurd hq (by simp)
      · next h =>
          push_neg at h
          exact ⟨h.1, h.2⟩
    · rintro ⟨h1, h2⟩
      have h : ¬(rate < 1/4 ∨ 2 < rate) := by
        push_neg
        exact ⟨h1, h2⟩
      refine ⟨rate, ?_⟩
      unfold validate_speaking_rate
      rw [if_neg h]
  · intro chunks lang dflt mp hne hr hout
    have hv : validate_speaking_rate rate =
        Except.error (S ("speaking_rate must be in range [0.25, 2.0]")) := by
      unfold validate_speaking_rate
      rw [if_pos hout]
    simp only [TextToSpeechProcessor.synthesize]
    rw [if_neg hne, if_pos hr, hv]

/-- Witness for C9: rate 3 is rejected before any provider call, rate 1 is
accepted by the validator. -/
theorem speaking_rate_validation_spec_witness :
    TextToSpeechProcessor.synthesize [['a']] none [] id 3 = SynthOutcome.invalidRateError ∧
    (∃ q, validate_speaking_rate 1 = Except.ok q) := by
  constructor
  · exact (speaking_rate_validation_spec 3).2 [['a']] none [] id (by simp) (by norm_num)
      (Or.inr (by norm_num))
  · exact (speaking_rate_validation_spec 1).1.mpr (by norm_num)

/-- C10: `TextToSpeechProcessor.synthesize` raises the "Text cannot be empty"
error exactly on the empty chunk list — before any language selection or
provider contact — and never takes that branch on a non-empty list. -/
theorem synthesize_empty_chunks_spec :
    ∀ (chunks : List (List Char)) (language : Option (List Char))
      (defaultLanguage : List Char) (langMap : List Char → List Char) (rate : ℚ),
      (chunks = [] →
        TextToSpeechProcessor.synthesize chunks language defaultLanguage langMap rate =
          SynthOutcome.emptyTextError) ∧
      (chunks ≠ [] →
        TextToSpeechProcessor.synthesize chunks language defaultLanguage langMap rate ≠
          SynthOutcome.emptyTextError) := by
  intro chunks lang dflt mp rate
  constructor
  · intro h
    simp [TextToSpeechProcessor.synthesize, h]
  · intro h
    simp only [TextToSpeechProcessor.synthesize]
    rw [if_neg h]
    split
    · split <;> simp
    · simp

/-- Witness for C10 at concrete inputs. -/
theorem synthesize_empty_chunks_spec_witness :
    TextToSpeechProcessor.synthesize [] none [] id 1 = SynthOutcome.emptyTextError ∧
    TextToSpeechProcessor.synthesize [['a']] none [] id 1 ≠ SynthOutcome.emptyTextError := by
  constructor
  · exact (synthesize_empty_chunks_spec [] none [] id 1).1 rfl
  · exact (synthesize_empty_chunks_spec [['a']] none [] id 1).2 (by simp)

/-! ## Helper lemmas about the string primitives -/

/-- A list with no leading and no trailing whitespace. -/
def noEdgeSpace (l : List Char) : Prop :=
  (∀ a, l.head? = some a → pyIsSpace a = false) ∧
  (∀ b, l.getLast? = some b → pyIsSpace b = false)

lemma dropWhile_eq_self_of_head (p : Char → Bool) (l : List Char)
    (h : ∀ a, l.head? = some a → p a = false) : l.dropWhile p = l := by
  cases l with
  | nil => rfl
  | cons c rest => simp [List.dropWhile_cons, h c rfl]

lemma head_dropWhile_false (p : Char → Bool) :
    ∀ (l : List Char) (a : Char), (l.dropWhile p).head? = some a → p a = false := by
  intro l
  induction l with
  | nil => simp [List.dropWhile]
  | cons c rest ih =>
    intro a ha
    rw [List.dropWhile_cons] at ha
    by_cases hc : p c
    · rw [if_pos hc] at ha
      exact ih a ha
    · rw [if_neg hc] at ha
      simp only [List.head?_cons, Option.some.injEq] at ha
      rw [← ha]
      exact Bool.eq_false_iff.mpr hc

lemma getLast?_of_suffix {a b : List Char} (h : a <:+ b) (ha : a ≠ []) :
    a.getLast? = b.getLast? := by
  obtain ⟨t, rfl⟩ := h
  exact (List.getLast?_append_of_ne_nil t ha).symm

lemma pyStrip_eq_self {l : List Char} (h : noEdgeSpace l) : pyStrip l = l := by
  unfold pyStrip
  rw [dropWhile_eq_self_of_head _ _ h.1]
  rw [dropWhile_eq_self_of_head, List.reverse_reverse]
  intro a ha
  rw [List.head?_reverse] at ha
  exact h.2 a ha

lemma noEdgeSpace_pyStrip (l : List Char) : noEdgeSpace (pyStrip l) := by
  constructor
  · intro a ha
    unfold pyStrip at ha
    rw [List.head?_reverse] at ha
    have hne : (l.dropWhile pyIsSpace).reverse.dropWhile pyIsSpace ≠ [] := by
      intro h0
      rw [h0] at ha
      simp at ha
    rw [getLast?_of_suffix (List.dropWhile_suffix _) hne, List.getLast?_reverse] at ha
    exact head_dropWhile_false _ _ _ ha
  · intro b hb
    unfold pyStrip at hb
    rw [List.getLast?_reverse] at hb
    exact head_dropWhile_false _ _ _ hb

lemma pyStrip_length_le (l : List Char) : (pyStrip l).length ≤ l.length := by
  unfold pyStrip
  calc ((l.dropWhile pyIsSpace).reverse.dropWhile pyIsSpace).reverse.length
      = ((l.dropWhile pyIsSpace).reverse.dropWhile pyIsSpace).length := by
        rw [List.length_reverse]
    _ ≤ (l.dropWhile pyIsSpace).reverse.length :=
        (List.dropWhile_suffix pyIsSpace).sublist.length_le
    _ = (l.dropWhile pyIsSpace).length := by rw [List.length_reverse]
    _ ≤ l.length := (List.dropWhile_suffix pyIsSpace).sublist.length_le

lemma noEdgeSpace_of_all {l : List Char} (h : ∀ c ∈ l, pyIsSpace c = false) :
    noEdgeSpace l :=
  ⟨fun a ha => h a (List.mem_of_mem_head? ha),
   fun b hb => h b (List.mem_of_getLast?_eq_some hb)⟩

lemma head?_append_left {a : List Char} (b : List Char) (h : a ≠ []) :
    (a ++ b).head? = a.head? := by
  cases a with
  | nil => exact absurd rfl h
  | cons x xs => rfl

lemma noEdgeSpace_glue {a b : List Char} (ha : a ≠ []) (hb : b ≠ [])
    (hA : noEdgeSpace a) (hB : noEdgeSpace b) : noEdgeSpace (a ++ ' ' :: b) := by
  constructor
  · intro x hx
    rw [head?_append_left _ ha] at hx
    exact hA.1 x hx
  · intro y hy
    have : (' ' :: b).getLast? = b.getLast? := by
      have := List.getLast?_append_of_ne_nil [' '] hb
      simpa using this
    rw [show (a ++ ' ' :: b) = a ++ ([' '] ++ b) by simp,
        List.getLast?_append_of_ne_nil _ (by simp [hb]),
        List.getLast?_append_of_ne_nil _ hb] at hy
    exact hB.2 y hy

lemma noEdgeSpace_sentence (raw : List Char) (h : pyStrip raw ≠ []) :
    noEdgeSpace (pyStrip raw ++ ['.']) := by
  constructor
  · intro a ha
    rw [head?_append_left _ h] at ha
    exact (noEdgeSpace_pyStrip raw).1 a ha
  · intro b hb
    rw [List.getLast?_append_of_ne_nil _ (show (['.'] : List Char) ≠ [] by simp)] at hb
    simp only [List.getLast?_singleton, Option.some.injEq] at hb
    rw [← hb]
    rfl

lemma procSentences_cons (r : List Char) (rs : List (List Char)) :
    procSentences (r :: rs) =
      if pyStrip r = [] then procSentences rs
      else (pyStrip r ++ ['.']) :: procSentences rs := by
  unfold procSentences
  simp only [List.map_cons, List.filter_cons]
  by_cases h : pyStrip r = []
  · simp [h]
  · simp [h]

lemma sentStep_eq (L : Nat) (chunks : List (List Char)) (current : List Char)
    (raw : List Char) :
    sentStep L (chunks, current) raw =
      if pyStrip raw = [] then (chunks, current)
      else if current.length + (pyStrip raw ++ ['.']).length > L then
        (if current = [] then (pyWords (pyStrip raw ++ ['.'])).foldl (wordStep L) (chunks, [])
         else (chunks ++ [pyStrip current], pyStrip raw ++ ['.']))
      else (chunks, if current = [] then pyStrip raw ++ ['.']
            else current ++ ' ' :: (pyStrip raw ++ ['.'])) := rfl

lemma sentLoop_length_bound (L : Nat) :
    ∀ (rs : List (List Char)) (chunks : List (List Char)) (current : List Char),
      (∀ s ∈ procSentences rs, s.length ≤ L) →
      current.length ≤ L + 1 →
      (∀ c ∈ chunks, c.length ≤ L + 1) →
      ∀ c ∈ sentFinish (rs.foldl (sentStep L) (chunks, current)), c.length ≤ L + 1 := by
  intro rs
  induction rs with
  | nil =>
    intro chunks current _ hcur hch c hc
    rw [List.foldl_nil] at hc
    unfold sentFinish at hc
    by_cases h : current = []
    · rw [if_pos h] at hc
      exact hch c hc
    · rw [if_neg h] at hc
      rcases List.mem_append.mp hc with h1 | h1
      · exact hch c h1
      · have : c = pyStrip current := by simpa using h1
        rw [this]
        exact le_trans (pyStrip_length_le current) hcur
  | cons r rs ih =>
    intro chunks current h1 hcur hch
    rw [List.foldl_cons, sentStep_eq]
    by_cases hr : pyStrip r = []
    · rw [if_pos hr]
      refine ih chunks current ?_ hcur hch
      intro s hs
      apply h1
      rw [procSentences_cons, if_pos hr]
      exact hs
    · rw [if_neg hr]
      have hsl : (pyStrip r ++ ['.']).length ≤ L := by
        apply h1
        rw [procSentences_cons, if_neg hr]
        exact List.mem_cons_self _ _
      have h1' : ∀ s ∈ procSentences rs, s.length ≤ L := by
        intro s hs
        apply h1
        rw [procSentences_cons, if_neg hr]
        exact List.mem_cons_of_mem _ hs
      by_cases hgt : current.length + (pyStrip r ++ ['.']).length > L
      · rw [if_pos hgt]
        by_cases hcur0 : current = []
        · exfalso
          rw [hcur0] at hgt
          simp only [List.length_nil, Nat.zero_add] at hgt
          omega
        · rw [if_neg hcur0]
          refine ih _ _ h1' (le_trans hsl (by omega)) ?_
          intro c hc
          rcases List.mem_append.mp hc with h2 | h2
          · exact hch c h2
          · have : c = pyStrip current := by simpa using h2
            rw [this]
            exact le_trans (pyStrip_length_le current) hcur
      · rw [if_neg hgt]
        refine ih _ _ h1' ?_ hch
        by_cases hcur0 : current = []
        · rw [if_pos hcur0]
          exact le_trans hsl (by omega)
        · rw [if_neg hcur0]
          have : (current ++ ' ' :: (pyStrip r ++ ['.'])).length =
              current.length + 1 + (pyStrip r ++ ['.']).length := by
            simp [List.length_append]
            omega
          omega

/-- C1 amended: when every normalized sentence (stripped, with the period
re-appended) fits in `max_length`, every chunk returned by `chunk_text` has
length at most `max_length + 1` — the extra character comes from the joining
space that the greedy size test does not count. -/
theorem chunk_len_bound_amended :
    ∀ (text : List Char) (maxLength : Nat),
      (∀ s ∈ fullSentences text, s.length ≤ maxLength) →
      ∀ c ∈ chunk_text text maxLength, c.length ≤ maxLength + 1 := by
  intro text L h c hc
  unfold chunk_text at hc
  by_cases hlen : text.length ≤ L
  · rw [if_pos hlen] at hc
    have : c = text := by simpa using hc
    rw [this]
    omega
  · rw [if_neg hlen] at hc
    exact sentLoop_length_bound L (sentencesOfRaw text) [] [] h (by simp) (by simp) c hc

/-- Witness for C1's amended theorem at `"aa. b."` with `max_length = 5`. -/
theorem chunk_len_bound_amended_witness :
    (∀ s ∈ fullSentences (S ("aa. b.")), s.length ≤ 5) ∧
    (∀ c ∈ chunk_text (S ("aa. b.")) 5, c.length ≤ 6) :=
  ⟨by decide, chunk_len_bound_amended (S ("aa. b.")) 5 (by decide)⟩

/-! ## Word-loop lemmas (for the word-splitting policy) -/

/-- Every element is a nonempty whitespace-free word. -/
def SpaceFreeWords (ws : List (List Char)) : Prop :=
  ∀ w ∈ ws, w ≠ [] ∧ ∀ c ∈ w, pyIsSpace c = false

lemma splitOnP_ne_nil (p : Char → Bool) (l : List Char) : splitOnP p l ≠ [] := by
  induction l with
  | nil => simp [splitOnP]
  | cons c rest ih =>
    unfold splitOnP
    by_cases h : p c = true
    · simp [h]
    · cases hr : splitOnP p rest with
      | nil => exact absurd hr ih
      | cons x xs => simp [h, hr]

lemma mem_splitOnP (p : Char → Bool) :
    ∀ (l : List Char), ∀ piece ∈ splitOnP p l, ∀ c ∈ piece, p c = false := by
  intro l
  induction l with
  | nil =>
    intro piece hp
    simp only [splitOnP, List.mem_singleton] at hp
    subst hp
    simp
  | cons c rest ih =>
    intro piece hp cc hcc
    unfold splitOnP at hp
    by_cases h : p c = true
    · rw [if_pos h] at hp
      rcases List.mem_cons.mp hp with h1 | h1
      · subst h1
        exact absurd hcc (List.not_mem_nil cc)
      · exact ih piece h1 cc hcc
    · rw [if_neg h] at hp
      cases hr : splitOnP p rest with
      | nil => exact absurd hr (splitOnP_ne_nil p rest)
      | cons x xs =>
        rw [hr] at hp
        simp only at hp
        rcases List.mem_cons.mp hp with h1 | h1
        · subst h1
          rcases List.mem_cons.mp hcc with h2 | h2
          · subst h2
            exact Bool.eq_false_iff.mpr h
          · exact ih x (by rw [hr]; exact List.mem_cons_self x xs) cc h2
        · exact ih piece (by rw [hr]; exact List.mem_cons_of_mem x h1) cc hcc

lemma pyWords_sound (l : List Char) : SpaceFreeWords (pyWords l) := by
  intro w hw
  unfold pyWords at hw
  rw [List.mem_filter] at hw
  exact ⟨by simpa using hw.2, mem_splitOnP pyIsSpace l w hw.1⟩

lemma splitOnP_all_false (p : Char → Bool) :
    ∀ (w : List Char), (∀ c ∈ w, p c = false) → splitOnP p w = [w] := by
  intro w
  induction w with
  | nil => intro; rfl
  | cons c rest ih =>
    intro h
    have hc : p c = false := h c (List.mem_cons_self c rest)
    have hrest := ih (fun x hx => h x (List.mem_cons_of_mem c hx))
    unfold splitOnP
    rw [hrest]
    simp [hc]

lemma splitOnP_cons (p : Char → Bool) (c : Char) (rest : List Char) :
    splitOnP p (c :: rest) =
      if p c then [] :: splitOnP p rest
      else match splitOnP p rest with
           | [] => [[c]]
           | h :: t => (c :: h) :: t := rfl

lemma splitOnP_glue (p : Char → Bool) (sep : Char) (hs : p sep = true) :
    ∀ (w t : List Char), (∀ c ∈ w, p c = false) →
      splitOnP p (w ++ sep :: t) = w :: splitOnP p t := by
  intro w
  induction w with
  | nil =>
    intro t _
    rw [List.nil_append, splitOnP_cons, if_pos hs]
  | cons c w' ih =>
    intro t h
    have hc : p c = false := h c (List.mem_cons_self c w')
    have hrec := ih t (fun x hx => h x (List.mem_cons_of_mem c hx))
    rw [List.cons_append, splitOnP_cons, hrec, if_neg (by simp [hc])]

lemma pyWords_single (w : List Char) (hne : w ≠ []) (hw : ∀ c ∈ w, pyIsSpace c = false) :
    pyWords w = [w] := by
  unfold pyWords
  rw [splitOnP_all_false _ _ hw]
  simp [hne]

lemma pyWords_glue (w t : List Char) (hne : w ≠ []) (hw : ∀ c ∈ w, pyIsSpace c = false) :
    pyWords (w ++ ' ' :: t) = w :: pyWords t := by
  unfold pyWords
  rw [splitOnP_glue pyIsSpace ' ' (by rfl) w t hw]
  simp [hne]

lemma joinSp_cons₂ (x y : List Char) (zs : List (List Char)) :
    joinSp (x :: y :: zs) = x ++ ' ' :: joinSp (y :: zs) := rfl

lemma joinSp_ne_nil (x : List Char) (xs : List (List Char)) (hx : x ≠ []) :
    joinSp (x :: xs) ≠ [] := by
  cases xs with
  | nil => simpa [joinSp]
  | cons y ys => simp [joinSp_cons₂]

lemma joinSp_append_single (ws : List (List Char)) (w : List Char) :
    joinSp (ws ++ [w]) = if ws = [] then w else joinSp ws ++ ' ' :: w := by
  induction ws with
  | nil => simp [joinSp]
  | cons a ws ih =>
    cases ws with
    | nil => simp [joinSp]
    | cons b ws' =>
      rw [if_neg (by simp)]
      rw [show (a :: b :: ws') ++ [w] = a :: ((b :: ws') ++ [w]) from rfl]
      rw [show (b :: ws') ++ [w] = b :: (ws' ++ [w]) from rfl]
      rw [joinSp_cons₂ a b (ws' ++ [w])]
      rw [show b :: (ws' ++ [w]) = (b :: ws') ++ [w] from rfl, ih]
      rw [if_neg (by simp), joinSp_cons₂]
      simp [List.append_assoc]

lemma pyWords_joinSp : ∀ (tws : List (List Char)), SpaceFreeWords tws →
    pyWords (joinSp tws) = tws := by
  intro tws
  induction tws with
  | nil => intro; rfl
  | cons w tws ih =>
    intro h
    obtain ⟨hne, hsp⟩ := h w (List.mem_cons_self w tws)
    cases tws with
    | nil => exact pyWords_single w hne hsp
    | cons y tys =>
      rw [joinSp_cons₂, pyWords_glue w _ hne hsp,
          ih (fun x hx => h x (List.mem_cons_of_mem w hx))]

lemma noEdgeSpace_joinSp : ∀ (tws : List (List Char)), SpaceFreeWords tws →
    tws ≠ [] → noEdgeSpace (joinSp tws) := by
  intro tws
  induction tws with
  | nil => intro _ h; exact absurd rfl h
  | cons w tws ih =>
    intro h _
    obtain ⟨hne, hsp⟩ := h w (List.mem_cons_self w tws)
    cases tws with
    | nil => exact noEdgeSpace_of_all hsp
    | cons y tys =>
      have htailsf : SpaceFreeWords (y :: tys) := fun x hx => h x (List.mem_cons_of_mem w hx)
      have hyne : y ≠ [] := (htailsf y (List.mem_cons_self y tys)).1
      rw [joinSp_cons₂]
      exact noEdgeSpace_glue hne (joinSp_ne_nil y tys hyne)
        (noEdgeSpace_of_all hsp) (ih htailsf (by simp))

lemma wordStep_eq (L : Nat) (chunks : List (List Char)) (temp w : List Char) :
    wordStep L (chunks, temp) w =
      if temp.length + w.length + 1 > L then
        (if temp = [] then (chunks ++ [w.take L], w.drop L)
         else (chunks ++ [pyStrip temp], w))
      else (chunks, if temp = [] then w else temp ++ ' ' :: w) := rfl

lemma wordLoop_join (L : Nat) :
    ∀ (ws : List (List Char)) (chunks : List (List Char)) (tws : List (List Char)),
      SpaceFreeWords tws →
      (∀ w ∈ ws, w ≠ [] ∧ (∀ c ∈ w, pyIsSpace c = false) ∧ w.length + 1 ≤ L) →
      (((ws.foldl (wordStep L) (chunks, joinSp tws)).1.map pyWords).flatten
          ++ pyWords (ws.foldl (wordStep L) (chunks, joinSp tws)).2)
        = (chunks.map pyWords).flatten ++ tws ++ ws := by
  intro ws
  induction ws with
  | nil =>
    intro chunks tws htws _
    rw [List.foldl_nil]
    rw [pyWords_joinSp tws htws]
    simp
  | cons w ws ih =>
    intro chunks tws htws hws
    obtain ⟨hwne, hwsp, hwlen⟩ := hws w (List.mem_cons_self w ws)
    have hws' : ∀ x ∈ ws, x ≠ [] ∧ (∀ c ∈ x, pyIsSpace c = false) ∧ x.length + 1 ≤ L :=
      fun x hx => hws x (List.mem_cons_of_mem w hx)
    rw [List.foldl_cons, wordStep_eq]
    by_cases hgt : (joinSp tws).length + w.length + 1 > L
    · rw [if_pos hgt]
      by_cases htempty : joinSp tws = []
      · exfalso
        rw [htempty] at hgt
        simp only [List.length_nil, Nat.zero_add] at hgt
        omega
      · rw [if_neg htempty]
        have htwsne : tws ≠ [] := by
          intro h0
          rw [h0] at htempty
          exact htempty rfl
        rw [pyStrip_eq_self (noEdgeSpace_joinSp tws htws htwsne)]
        have hsf : SpaceFreeWords [w] := by
          intro x hx
          rw [List.mem_singleton] at hx
          subst hx
          exact ⟨hwne, hwsp⟩
        have := ih (chunks ++ [joinSp tws]) [w] hsf hws'
        rw [show joinSp [w] = w from rfl] at this
        rw [this]
        rw [List.map_append, List.flatten_append]
        simp only [List.map_cons, List.map_nil, List.flatten_cons, List.flatten_nil,
          List.append_nil, pyWords_joinSp tws htws]
        simp [List.append_assoc]
    · rw [if_neg hgt]
      have hmerge : (if joinSp tws = [] then w else joinSp tws ++ ' ' :: w) =
          joinSp (tws ++ [w]) := by
        rw [joinSp_append_single]
        by_cases h0 : tws = []
        · subst h0
          simp [joinSp]
        · rw [if_neg h0]
          cases tws with
          | nil => exact absurd rfl h0
          | cons a ts =>
            have hane : a ≠ [] := (htws a (List.mem_cons_self a ts)).1
            rw [if_neg (joinSp_ne_nil a ts hane)]
      rw [hmerge]
      have hsf : SpaceFreeWords (tws ++ [w]) := by
        intro x hx
        rcases List.mem_append.mp hx with h1 | h1
        · exact htws x h1
        · rw [List.mem_singleton] at h1
          subst h1
          exact ⟨hwne, hwsp⟩
      rw [ih chunks (tws ++ [w]) hsf hws']
      simp [List.append_assoc]

/-- C5 amended.  First part: when every word of the (space-separated) input
has length strictly below `max_length`, re-splitting everything the word loop
produced back into words yields exactly the original word sequence — no word
is ever cut.  Second part: a word of length at least `max_length` arriving
when the word buffer `temp_chunk` is empty is force-split into
`word[:max_length]` (emitted as its own chunk) and `word[max_length:]`
(carried forward), and the two pieces concatenate back to the original word.
(An oversized word arriving on a nonempty buffer is emitted whole, and the
sentence split on '.', '!', '?' can still cut words containing those
characters — see the counterexample.) -/
theorem word_split_policy_amended :
    (∀ (L : Nat) (s : List Char),
       (∀ w ∈ pyWords s, w.length + 1 ≤ L) →
       ((((pyWords s).foldl (wordStep L) ([], [])).1.map pyWords).flatten ++
          pyWords ((pyWords s).foldl (wordStep L) ([], [])).2) = pyWords s) ∧
    (∀ (L : Nat) (chunks : List (List Char)) (w : List Char) (ws : List (List Char)),
       L ≤ w.length →
       (w :: ws).foldl (wordStep L) (chunks, []) =
         ws.foldl (wordStep L) (chunks ++ [w.take L], w.drop L) ∧
       w.take L ++ w.drop L = w) := by
  constructor
  · intro L s h
    have hsf : SpaceFreeWords ([] : List (List Char)) := fun x hx => absurd hx (List.not_mem_nil x)
    have := wordLoop_join L (pyWords s) [] [] hsf
      (fun w hw => ⟨(pyWords_sound s w hw).1, (pyWords_sound s w hw).2, h w hw⟩)
    simpa using this
  · intro L chunks w ws hlen
    constructor
    · rw [List.foldl_cons, wordStep_eq, if_pos (by simp; omega), if_pos rfl]
    · exact List.take_append_drop L w

/-- Witness for C5's amended theorem at concrete inputs. -/
theorem word_split_policy_amended_witness :
    (((((pyWords (S ("ab cd"))).foldl (wordStep 9) ([], [])).1.map pyWords).flatten ++
        pyWords ((pyWords (S ("ab cd"))).foldl (wordStep 9) ([], [])).2) =
      pyWords (S ("ab cd"))) ∧
    ([S ("abcdefgh")].foldl (wordStep 3) ([], []) =
        ([] : List (List Char)).foldl (wordStep 3)
          ([(S ("abcdefgh")).take 3], (S ("abcdefgh")).drop 3) ∧
      (S ("abcdefgh")).take 3 ++ (S ("abcdefgh")).drop 3 = S ("abcdefgh")) :=
  ⟨word_split_policy_amended.1 9 (S ("ab cd")) (by decide),
   word_split_policy_amended.2 3 [] (S ("abcdefgh")) [] (by decide)⟩

/-! ## Sentence-loop lemmas (for content preservation) -/

lemma joinSp_cons_ne (x : List Char) (l : List (List Char)) (h : l ≠ []) :
    joinSp (x :: l) = x ++ ' ' :: joinSp l := by
  cases l with
  | nil => exact absurd rfl h
  | cons y ys => rfl

lemma joinSp_mid (xs : List (List Char)) (a b : List Char) (ys : List (List Char)) :
    joinSp (xs ++ (a ++ ' ' :: b) :: ys) = joinSp (xs ++ a :: b :: ys) := by
  induction xs with
  | nil =>
    cases ys with
    | nil => rfl
    | cons y ys' =>
      rw [List.nil_append, List.nil_append, joinSp_cons₂, joinSp_cons₂, joinSp_cons₂]
      simp [List.append_assoc]
  | cons x xs ih =>
    rw [List.cons_append, List.cons_append,
        joinSp_cons_ne x _ (by simp), joinSp_cons_ne x _ (by simp), ih]

lemma procSentences_elem_ne_nil (rs : List (List Char)) :
    ∀ s ∈ procSentences rs, s ≠ [] := by
  intro s hs
  unfold procSentences at hs
  rw [List.mem_map] at hs
  obtain ⟨x, _, rfl⟩ := hs
  simp

lemma sentLoop_joinSp (L : Nat) :
    ∀ (rs : List (List Char)) (chunks : List (List Char)) (current : List Char),
      (∀ s ∈ procSentences rs, s.length ≤ L) →
      (current = [] ∨ (current ≠ [] ∧ noEdgeSpace current)) →
      joinSp (sentFinish (rs.foldl (sentStep L) (chunks, current))) =
        joinSp (chunks ++ (if current = [] then [] else [current]) ++ procSentences rs) := by
  intro rs
  induction rs with
  | nil =>
    intro chunks current _ hcur
    rw [List.foldl_nil]
    unfold sentFinish
    rcases hcur with h | ⟨hne, hed⟩
    · rw [if_pos h, if_pos h]
      simp [procSentences]
    · rw [if_neg hne, if_neg hne, pyStrip_eq_self hed]
      simp [procSentences]
  | cons r rs ih =>
    intro chunks current h1 hcur
    rw [List.foldl_cons, sentStep_eq]
    by_cases hr : pyStrip r = []
    · rw [if_pos hr, ih chunks current
        (fun s hs => h1 s (by rw [procSentences_cons, if_pos hr]; exact hs)) hcur,
        procSentences_cons, if_pos hr]
    · rw [if_neg hr]
      have hsl : (pyStrip r ++ ['.']).length ≤ L := by
        apply h1
        rw [procSentences_cons, if_neg hr]
        exact List.mem_cons_self _ _
      have h1' : ∀ s ∈ procSentences rs, s.length ≤ L := fun s hs => h1 s
        (by rw [procSentences_cons, if_neg hr]; exact List.mem_cons_of_mem _ hs)
      have hsed : noEdgeSpace (pyStrip r ++ ['.']) := noEdgeSpace_sentence r hr
      have hsne : pyStrip r ++ ['.'] ≠ [] := by simp
      by_cases hgt : current.length + (pyStrip r ++ ['.']).length > L
      · rw [if_pos hgt]
        by_cases hc0 : current = []
        · exfalso
          rw [hc0] at hgt
          simp only [List.length_nil, Nat.zero_add] at hgt
          omega
        · rw [if_neg hc0]
          rcases hcur with h | ⟨_, hed⟩
          · exact absurd h hc0
          rw [pyStrip_eq_self hed,
              ih (chunks ++ [current]) (pyStrip r ++ ['.']) h1' (Or.inr ⟨hsne, hsed⟩),
              if_neg hsne, procSentences_cons, if_neg hr, if_neg hc0]
          congr 1
          simp
      · rw [if_neg hgt, procSentences_cons, if_neg hr]
        by_cases hc0 : current = []
        · rw [if_pos hc0,
              ih chunks (pyStrip r ++ ['.']) h1' (Or.inr ⟨hsne, hsed⟩),
              if_neg hsne, if_pos hc0]
          congr 1
          simp
        · rw [if_neg hc0]
          rcases hcur with h | ⟨hne2, hed⟩
          · exact absurd h hc0
          have hnew_ne : current ++ ' ' :: (pyStrip r ++ ['.']) ≠ [] := by simp
          have hnew_ed : noEdgeSpace (current ++ ' ' :: (pyStrip r ++ ['.'])) :=
            noEdgeSpace_glue hne2 hsne hed hsed
          rw [ih chunks (current ++ ' ' :: (pyStrip r ++ ['.'])) h1'
                (Or.inr ⟨hnew_ne, hnew_ed⟩),
              if_neg hnew_ne, if_neg hc0]
          rw [show chunks ++ [current ++ ' ' :: (pyStrip r ++ ['.'])] ++ procSentences rs =
              chunks ++ (current ++ ' ' :: (pyStrip r ++ ['.'])) :: procSentences rs from by simp,
              joinSp_mid]
          congr 1
          simp

lemma sentLoop_chunks_shape (L : Nat) :
    ∀ (rs : List (List Char)) (chunks : List (List Char)) (current : List Char),
      (∀ s ∈ procSentences rs, s.length ≤ L) →
      (current = [] ∨ (current ≠ [] ∧ noEdgeSpace current)) →
      ∀ c ∈ sentFinish (rs.foldl (sentStep L) (chunks, current)), c ∈ chunks ∨ c ≠ [] := by
  intro rs
  induction rs with
  | nil =>
    intro chunks current _ hcur c hc
    rw [List.foldl_nil] at hc
    unfold sentFinish at hc
    rcases hcur with h | ⟨hne, hed⟩
    · rw [if_pos h] at hc
      exact Or.inl hc
    · rw [if_neg hne] at hc
      rcases List.mem_append.mp hc with h1 | h1
      · exact Or.inl h1
      · have : c = pyStrip current := by simpa using h1
        rw [this, pyStrip_eq_self hed]
        exact Or.inr hne
  | cons r rs ih =>
    intro chunks current h1 hcur c hc
    rw [List.foldl_cons, sentStep_eq] at hc
    by_cases hr : pyStrip r = []
    · rw [if_pos hr] at hc
      exact ih chunks current
        (fun s hs => h1 s (by rw [procSentences_cons, if_pos hr]; exact hs)) hcur c hc
    · rw [if_neg hr] at hc
      have hsl : (pyStrip r ++ ['.']).length ≤ L := by
        apply h1
        rw [procSentences_cons, if_neg hr]
        exact List.mem_cons_self _ _
      have h1' : ∀ s ∈ procSentences rs, s.length ≤ L := fun s hs => h1 s
        (by rw [procSentences_cons, if_neg hr]; exact List.mem_cons_of_mem _ hs)
      have hsed : noEdgeSpace (pyStrip r ++ ['.']) := noEdgeSpace_sentence r hr
      have hsne : pyStrip r ++ ['.'] ≠ [] := by simp
      by_cases hgt : current.length + (pyStrip r ++ ['.']).length > L
      · rw [if_pos hgt] at hc
        by_cases hc0 : current = []
        · exfalso
          rw [hc0] at hgt
          simp only [List.length_nil, Nat.zero_add] at hgt
          omega
        · rw [if_neg hc0] at hc
          rcases hcur with h | ⟨hne2, hed⟩
          · exact absurd h hc0
          rcases ih (chunks ++ [pyStrip current]) (pyStrip r ++ ['.']) h1'
              (Or.inr ⟨hsne, hsed⟩) c hc with h2 | h2
          · rcases List.mem_append.mp h2 with h3 | h3
            · exact Or.inl h3
            · have : c = pyStrip current := by simpa using h3
              rw [this, pyStrip_eq_self hed]
              exact Or.inr hne2
          · exact Or.inr h2
      · rw [if_neg hgt] at hc
        by_cases hc0 : current = []
        · rw [if_pos hc0] at hc
          exact ih chunks (pyStrip r ++ ['.']) h1' (Or.inr ⟨hsne, hsed⟩) c hc
        · rw [if_neg hc0] at hc
          rcases hcur with h | ⟨hne2, hed⟩
          · exact absurd h hc0
          exact ih chunks (current ++ ' ' :: (pyStrip r ++ ['.'])) h1'
            (Or.inr ⟨by simp, noEdgeSpace_glue hne2 hsne hed hsed⟩) c hc

lemma paraSplitGo_succ_cons (fuel : Nat) (acc : List Char) (c : Char) (rest : List Char) :
    paraSplitGo (fuel + 1) acc (c :: rest) =
      if c = '\n' ∧ '\n' ∈ (((c :: rest).takeWhile pyIsSpace).drop 1) then
        acc.reverse :: paraSplitGo fuel []
          ((((c :: rest).takeWhile pyIsSpace).reverse.takeWhile (fun x => x ≠ '\n')).reverse
            ++ (c :: rest).dropWhile pyIsSpace)
      else paraSplitGo fuel (c :: acc) rest := rfl

lemma paraSplitGo_no_nl : ∀ (fuel : Nat) (acc l : List Char),
    (∀ c ∈ l, c ≠ '\n') → paraSplitGo fuel acc l = [acc.reverse ++ l] := by
  intro fuel
  induction fuel with
  | zero =>
    intro acc l _
    cases l with
    | nil => simp [paraSplitGo]
    | cons c rest => rfl
  | succ n ih =>
    intro acc l h
    cases l with
    | nil => simp [paraSplitGo]
    | cons c rest =>
      have hc : c ≠ '\n' := h c (List.mem_cons_self c rest)
      rw [paraSplitGo_succ_cons, if_neg (fun h' => hc h'.1),
          ih (c :: acc) rest (fun x hx => h x (List.mem_cons_of_mem c hx))]
      simp

lemma paraSplit_no_nl (text : List Char) (h : ∀ c ∈ text, c ≠ '\n') :
    paraSplit text = [text] := by
  unfold paraSplit
  rw [paraSplitGo_no_nl _ _ _ h]
  simp

lemma paraStep_eq (L : Nat) (chunks : List (List Char)) (current rawPara : List Char) :
    paraStep L (chunks, current) rawPara =
      if pyStrip rawPara = [] then (chunks, current)
      else if current ≠ [] ∧
          current.length + (if current = [] then ([] : List Char) else ['\n', '\n']).length +
            (pyStrip rawPara).length ≤ L then
        (chunks, current ++ (if current = [] then [] else ['\n', '\n']) ++ pyStrip rawPara)
      else if (pyStrip rawPara).length ≤ L ∧ current = [] then
        (chunks, pyStrip rawPara)
      else if 1 < (chunk_text (pyStrip rawPara) L).length then
        ((if current = [] then chunks else chunks ++ [current]) ++
            (chunk_text (pyStrip rawPara) L).dropLast,
         ((chunk_text (pyStrip rawPara) L).getLast?).getD [])
      else ((if current = [] then chunks else chunks ++ [current]),
            (chunk_text (pyStrip rawPara) L).headD []) := rfl

lemma cpsw_eq_chunk_text (text : List Char) (L : Nat)
    (hn : ∀ c ∈ text, c ≠ '\n')
    (hs : pyStrip text = text)
    (hL : L < text.length)
    (h1 : ∀ s ∈ fullSentences text, s.length ≤ L)
    (hne : fullSentences text ≠ []) :
    chunk_text_paragraph_sentence_word text L = chunk_text text L := by
  have hnotle : ¬ text.length ≤ L := by omega
  have htne : text ≠ [] := by
    intro h0
    rw [h0] at hL
    simp at hL
  have hall : ∀ c ∈ chunk_text text L, c ≠ [] := by
    intro c hc
    unfold chunk_text at hc
    rw [if_neg hnotle] at hc
    rcases sentLoop_chunks_shape L (sentencesOfRaw text) [] [] h1 (Or.inl rfl) c hc with h | h
    · exact absurd h (List.not_mem_nil c)
    · exact h
  have hjoin : joinSp (chunk_text text L) = joinSp (fullSentences text) := by
    unfold chunk_text
    rw [if_neg hnotle, sentLoop_joinSp L (sentencesOfRaw text) [] [] h1 (Or.inl rfl)]
    simp [fullSentences]
  have hres_ne : chunk_text text L ≠ [] := by
    intro h0
    rw [h0] at hjoin
    cases hfs : fullSentences text with
    | nil => exact hne hfs
    | cons s ss =>
      rw [hfs] at hjoin
      exact joinSp_ne_nil s ss
        (procSentences_elem_ne_nil (sentencesOfRaw text) s
          (by rw [show procSentences (sentencesOfRaw text) = fullSentences text from rfl, hfs]
              exact List.mem_cons_self s ss))
        hjoin.symm
  have hstep : paraStep L ([], []) text =
      (if 1 < (chunk_text text L).length then
        ((chunk_text text L).dropLast, (chunk_text text L).getLast?.getD [])
       else ([], (chunk_text text L).headD [])) := by
    rw [paraStep_eq, hs]
    rw [if_neg htne]
    rw [if_neg (show ¬(([] : List Char) ≠ [] ∧
        ([] : List Char).length +
          (if ([] : List Char) = [] then ([] : List Char) else ['\n', '\n']).length +
          text.length ≤ L) from fun h0 => h0.1 rfl)]
    rw [if_neg (show ¬(text.length ≤ L ∧ ([] : List Char) = []) from
        fun h0 => hnotle h0.1)]
    by_cases h2 : 1 < (chunk_text text L).length <;> simp [h2]
  unfold chunk_text_paragraph_sentence_word
  rw [if_neg hnotle, paraSplit_no_nl text hn, List.foldl_cons, List.foldl_nil, hstep]
  by_cases h2 : 1 < (chunk_text text L).length
  · rw [if_pos h2]
    dsimp only
    have hlast_ne : (chunk_text text L).getLast?.getD [] ≠ [] := by
      rw [List.getLast?_eq_getLast _ hres_ne]
      exact hall _ (List.getLast_mem hres_ne)
    rw [if_neg hlast_ne, List.getLast?_eq_getLast _ hres_ne]
    simp only [Option.getD_some]
    exact List.dropLast_append_getLast hres_ne
  · rw [if_neg h2]
    dsimp only
    cases hp : chunk_text text L with
    | nil => exact absurd hp hres_ne
    | cons c1 cs =>
      cases cs with
      | cons c2 cs' =>
        exfalso
        rw [hp] at h2
        simp at h2
      | nil =>
        have hc1 : c1 ≠ [] := hall c1 (by rw [hp]; exact List.mem_cons_self _ _)
        simp [hc1]

/-- C2 amended: for a newline-free, already-stripped text longer than
`max_length` whose normalized sentences each fit in `max_length`, joining the
chunks of `chunk_text_paragraph_sentence_word` with single spaces equals the
single-space join of the normalized sentences (each stripped and
'.'-terminated) — the sentence contents and their order are preserved.
Exact character-for-character reproduction fails (see the counterexample):
'!'/'?' are rewritten to '.', whitespace is collapsed at boundaries, and a
period is appended to a trailing fragment. -/
theorem chunk_roundtrip_amended :
    ∀ (text : List Char) (maxLength : Nat),
      (∀ c ∈ text, c ≠ '\n') →
      pyStrip text = text →
      maxLength < text.length →
      (∀ s ∈ fullSentences text, s.length ≤ maxLength) →
      fullSentences text ≠ [] →
      joinSp (chunk_text_paragraph_sentence_word text maxLength) =
        joinSp (fullSentences text) := by
  intro text L hn hs hL h1 hne
  rw [cpsw_eq_chunk_text text L hn hs hL h1 hne]
  unfold chunk_text
  rw [if_neg (by omega), sentLoop_joinSp L (sentencesOfRaw text) [] [] h1 (Or.inl rfl)]
  simp [fullSentences]

/-- Witness for C2's amended theorem at a concrete three-sentence text. -/
theorem chunk_roundtrip_amended_witness :
    joinSp (chunk_text_paragraph_sentence_word
        (S ("Hello there. General Kenobi. You are bold.")) 20) =
      joinSp (fullSentences (S ("Hello there. General Kenobi. You are bold."))) :=
  chunk_roundtrip_amended (S ("Hello there. General Kenobi. You are bold.")) 20
    (by decide) (by decide) (by decide) (by decide) (by decide)

/-! ## Splitlines lemmas (for pre-clean) -/

/-- A line containing no line-boundary character. -/
def breakFree (l : List Char) : Prop := ∀ c ∈ l, pyLineBreak c = false

/-- Drop the final line when it is empty — the effect of the `"\n".join` /
`splitlines` round trip on a trailing blank line. -/
def stripLastEmpty (out : List (List Char)) : List (List Char) :=
  if out.getLast? = some [] then out.dropLast else out

lemma slGo_nil_any (fuel : Nat) (cur : List Char) :
    slGo fuel cur [] = if cur = [] then [] else [cur.reverse] := by
  cases fuel <;> rfl

lemma slGo_succ_cons (fuel : Nat) (cur : List Char) (c : Char) (rest : List Char) :
    slGo (fuel + 1) cur (c :: rest) =
      if pyLineBreak c then
        cur.reverse ::
          slGo fuel [] (if c = '\r' ∧ rest.head? = some '\n' then rest.tail else rest)
      else slGo fuel (c :: cur) rest := rfl

lemma slGo_fuel_irrel : ∀ (n fuel₁ fuel₂ : Nat) (cur l : List Char),
    l.length ≤ n → l.length ≤ fuel₁ → l.length ≤ fuel₂ →
    slGo fuel₁ cur l = slGo fuel₂ cur l := by
  intro n
  induction n with
  | zero =>
    intro f1 f2 cur l h _ _
    have hl : l = [] := List.length_eq_zero.mp (Nat.le_zero.mp h)
    subst hl
    rw [slGo_nil_any, slGo_nil_any]
  | succ n ih =>
    intro f1 f2 cur l hn h1 h2
    cases l with
    | nil => rw [slGo_nil_any, slGo_nil_any]
    | cons c rest =>
      cases f1 with
      | zero => simp at h1
      | succ f1 =>
        cases f2 with
        | zero => simp at h2
        | succ f2 =>
          simp only [List.length_cons] at hn h1 h2
          rw [slGo_succ_cons, slGo_succ_cons]
          have htail : rest.tail.length ≤ rest.length := by
            rw [List.length_tail]
            omega
          by_cases hb : pyLineBreak c = true
          · rw [if_pos hb, if_pos hb]
            congr 1
            by_cases hcr : c = '\r' ∧ rest.head? = some '\n'
            · rw [if_pos hcr]
              exact ih f1 f2 [] rest.tail (by omega) (by omega) (by omega)
            · rw [if_neg hcr]
              exact ih f1 f2 [] rest (by omega) (by omega) (by omega)
          · rw [if_neg hb, if_neg hb]
            exact ih f1 f2 (c :: cur) rest (by omega) (by omega) (by omega)

lemma slGo_breakFree_line : ∀ (l : List Char), breakFree l →
    ∀ (cur : List Char) (fuel : Nat), l.length ≤ fuel →
    slGo fuel cur l = if cur.reverse ++ l = [] then [] else [cur.reverse ++ l] := by
  intro l
  induction l with
  | nil =>
    intro _ cur fuel _
    rw [slGo_nil_any]
    by_cases h : cur = [] <;> simp [h]
  | cons c rest ih =>
    intro h cur fuel hf
    have hc : pyLineBreak c = false := h c (List.mem_cons_self _ _)
    cases fuel with
    | zero => simp at hf
    | succ f =>
      rw [slGo_succ_cons, if_neg (by simp [hc]),
          ih (fun x hx => h x (List.mem_cons_of_mem c hx)) (c :: cur) f
            (by simp only [List.length_cons] at hf; omega)]
      have hrw : (c :: cur).reverse ++ rest = cur.reverse ++ c :: rest := by simp
      rw [hrw]

lemma pySplitlines_breakFree_line (l : List Char) (h : breakFree l) :
    pySplitlines l = if l = [] then [] else [l] := by
  unfold pySplitlines
  rw [slGo_breakFree_line l h [] l.length (le_refl _)]
  simp

lemma slGo_break_at : ∀ (l : List Char), breakFree l →
    ∀ (cur rest : List Char) (fuel : Nat), l.length + 1 + rest.length ≤ fuel →
    slGo fuel cur (l ++ '\n' :: rest) = (cur.reverse ++ l) :: slGo rest.length [] rest := by
  intro l
  induction l with
  | nil =>
    intro _ cur rest fuel hf
    cases fuel with
    | zero => simp at hf
    | succ f =>
      simp only [Nat.zero_add, List.length_nil] at hf
      rw [List.nil_append, slGo_succ_cons, if_pos (show pyLineBreak '\n' = true from rfl),
          if_neg (show ¬('\n' = '\r' ∧ rest.head? = some '\n') from
            fun h0 => absurd h0.1 (by decide))]
      rw [slGo_fuel_irrel rest.length f rest.length [] rest (le_refl _) (by omega) (le_refl _)]
      simp
  | cons c l' ih =>
    intro h cur rest fuel hf
    have hc : pyLineBreak c = false := h c (List.mem_cons_self _ _)
    cases fuel with
    | zero => simp at hf
    | succ f =>
      rw [List.cons_append, slGo_succ_cons, if_neg (by simp [hc]),
          ih (fun x hx => h x (List.mem_cons_of_mem c hx)) (c :: cur) rest f
            (by simp only [List.length_cons] at hf; omega)]
      have hrw : (c :: cur).reverse ++ l' = cur.reverse ++ c :: l' := by simp
      rw [hrw]

lemma pySplitlines_break (l rest : List Char) (h : breakFree l) :
    pySplitlines (l ++ '\n' :: rest) = l :: pySplitlines rest := by
  unfold pySplitlines
  rw [slGo_break_at l h [] rest _ (by simp [List.length_append]; omega)]
  simp

lemma slGo_mem_breakFree : ∀ (n fuel : Nat) (cur t : List Char),
    t.length ≤ n → t.length ≤ fuel → (∀ c ∈ cur, pyLineBreak c = false) →
    ∀ x ∈ slGo fuel cur t, breakFree x := by
  intro n
  induction n with
  | zero =>
    intro fuel cur t hn _ hcur x hx
    have ht : t = [] := List.length_eq_zero.mp (Nat.le_zero.mp hn)
    subst ht
    rw [slGo_nil_any] at hx
    split at hx
    · exact absurd hx (List.not_mem_nil x)
    · have hxc : x = cur.reverse := by simpa using hx
      subst hxc
      intro c hc
      exact hcur c (List.mem_reverse.mp hc)
  | succ n ih =>
    intro fuel cur t hn hfuel hcur x hx
    cases t with
    | nil =>
      rw [slGo_nil_any] at hx
      split at hx
      · exact absurd hx (List.not_mem_nil x)
      · have hxc : x = cur.reverse := by simpa using hx
        subst hxc
        intro c hc
        exact hcur c (List.mem_reverse.mp hc)
    | cons c rest =>
      cases fuel with
      | zero => simp at hfuel
      | succ f =>
        simp only [List.length_cons] at hn hfuel
        have htail : rest.tail.length ≤ rest.length := by
          rw [List.length_tail]
          omega
        rw [slGo_succ_cons] at hx
        by_cases hb : pyLineBreak c = true
        · rw [if_pos hb] at hx
          rcases List.mem_cons.mp hx with h1 | h1
          · subst h1
            intro cc hcc
            exact hcur cc (List.mem_reverse.mp hcc)
          · by_cases hcr : c = '\r' ∧ rest.head? = some '\n'
            · rw [if_pos hcr] at h1
              exact ih f [] rest.tail (by omega) (by omega)
                (fun cc hcc => absurd hcc (List.not_mem_nil cc)) x h1
            · rw [if_neg hcr] at h1
              exact ih f [] rest (by omega) (by omega)
                (fun cc hcc => absurd hcc (List.not_mem_nil cc)) x h1
        · rw [if_neg hb] at hx
          refine ih f (c :: cur) rest (by omega) (by omega) ?_ x hx
          intro cc hcc
          rcases List.mem_cons.mp hcc with h2 | h2
          · subst h2
            exact Bool.eq_false_iff.mpr hb
          · exact hcur cc h2

lemma pySplitlines_mem_breakFree (t : List Char) : ∀ l ∈ pySplitlines t, breakFree l :=
  slGo_mem_breakFree t.length t.length [] t (le_refl _) (le_refl _)
    (fun c hc => absurd hc (List.not_mem_nil c))

lemma joinNL_cons_ne (l : List Char) (ls : List (List Char)) (h : ls ≠ []) :
    joinNL (l :: ls) = l ++ '\n' :: joinNL ls := by
  cases ls with
  | nil => exact absurd rfl h
  | cons y ys => rfl

lemma stripLastEmpty_cons (l : List Char) (ls : List (List Char)) (h : ls ≠ []) :
    stripLastEmpty (l :: ls) = l :: stripLastEmpty ls := by
  cases ls with
  | nil => exact absurd rfl h
  | cons y ys =>
    unfold stripLastEmpty
    rw [List.getLast?_cons_cons]
    by_cases hlast : (y :: ys).getLast? = some []
    · rw [if_pos hlast, if_pos hlast]
      rfl
    · rw [if_neg hlast, if_neg hlast]

lemma pySplitlines_joinNL : ∀ (out : List (List Char)), (∀ l ∈ out, breakFree l) →
    pySplitlines (joinNL out) = stripLastEmpty out := by
  intro out
  induction out with
  | nil =>
    intro _
    rfl
  | cons l ls ih =>
    intro h
    cases ls with
    | nil =>
      rw [show joinNL [l] = l from rfl,
          pySplitlines_breakFree_line l (h l (List.mem_cons_self _ _))]
      unfold stripLastEmpty
      by_cases hl : l = []
      · subst hl
        simp
      · simp [hl]
    | cons y ys =>
      rw [joinNL_cons_ne l (y :: ys) (by simp),
          pySplitlines_break l (joinNL (y :: ys)) (h l (List.mem_cons_self _ _)),
          ih (fun x hx => h x (List.mem_cons_of_mem l hx)),
          stripLastEmpty_cons l (y :: ys) (by simp)]

/-! ## Pre-clean decision lemmas -/

lemma keepDecision_cases (norm : List (List Char)) (minR maxL : Nat) (a l : List Char)
    (h : keepDecision norm minR maxL a = some l) :
    (l = [] ∧ pyStrip a = []) ∨
    (l = a ∧ pyStrip a ≠ [] ∧
      ¬((pyStrip a).length ≤ maxL ∧ minR ≤ lineFreqCount norm (pyStrip a)) ∧
      matchPageNum (toLowerL (pyStrip a)) = false ∧
      matchAllDigits (pyStrip a) = false ∧ matchUrl (pyStrip a) = false) := by
  unfold keepDecision at h
  split_ifs at h with h1 h2 h3 h4 h5
  · exact Or.inl ⟨(Option.some.inj h).symm, h1⟩
  · refine Or.inr ⟨(Option.some.inj h).symm, h1, h2, ?_, ?_, ?_⟩
    · simpa using h3
    · simpa using h4
    · simpa using h5

lemma keepDecision_none_strip_ne (norm : List (List Char)) (minR maxL : Nat)
    (a : List Char) (h : keepDecision norm minR maxL a = none) : pyStrip a ≠ [] := by
  unfold keepDecision at h
  split_ifs at h with h1 h2 h3 h4 h5
  · exact h1
  · exact h1
  · exact h1
  · exact h1

lemma keepDecision_keep (norm : List (List Char)) (minR maxL : Nat) (l : List Char)
    (hne : pyStrip l ≠ [])
    (hnf : ¬((pyStrip l).length ≤ maxL ∧ minR ≤ lineFreqCount norm (pyStrip l)))
    (hp : matchPageNum (toLowerL (pyStrip l)) = false)
    (hd : matchAllDigits (pyStrip l) = false)
    (hu : matchUrl (pyStrip l) = false) :
    keepDecision norm minR maxL l = some l := by
  unfold keepDecision
  rw [if_neg hne, if_neg hnf, if_neg (by simp [hp]), if_neg (by simp [hd]),
      if_neg (by simp [hu])]

lemma lineFreqCount_eq_count (norm : List (List Char)) (s : List Char) (hs : s ≠ []) :
    lineFreqCount norm s = norm.count s := by
  unfold lineFreqCount
  exact List.count_filter (by simp [hs])

lemma filterMap_keep_strip_count_le (norm : List (List Char)) (minR maxL : Nat)
    (s : List Char) (hs : s ≠ []) :
    ∀ (lines : List (List Char)),
      ((lines.filterMap (keepDecision norm minR maxL)).map pyStrip).count s ≤
        (lines.map pyStrip).count s := by
  intro lines
  induction lines with
  | nil => simp
  | cons a ls ih =>
    rw [List.filterMap_cons]
    cases hk : keepDecision norm minR maxL a with
    | none =>
      rw [List.map_cons, List.count_cons]
      exact le_trans ih (by omega)
    | some l =>
      rw [List.map_cons, List.map_cons, List.count_cons, List.count_cons]
      rcases keepDecision_cases norm minR maxL a l hk with ⟨rfl, hstrip⟩ | ⟨rfl, _⟩
      · have h1 : (pyStrip ([] : List Char) == s) = false := by
          rw [show pyStrip ([] : List Char) = [] from rfl]
          exact beq_false_of_ne (Ne.symm hs)
        have h2 : (pyStrip a == s) = false := by
          rw [hstrip]
          exact beq_false_of_ne (Ne.symm hs)
        rw [h1, h2]
        simpa using ih
      · omega

lemma precleanLines_mem_breakFree (t : List Char) (minR maxL : Nat) :
    ∀ x ∈ precleanLines t minR maxL, breakFree x := by
  intro x hx
  unfold precleanLines at hx
  obtain ⟨a, ha, hk⟩ := List.mem_filterMap.mp hx
  rcases keepDecision_cases _ _ _ _ _ hk with ⟨rfl, _⟩ | ⟨rfl, _⟩
  · intro c hc
    exact absurd hc (List.not_mem_nil c)
  · exact pySplitlines_mem_breakFree t x ha

lemma stripLastEmpty_sublist (out : List (List Char)) :
    List.Sublist (stripLastEmpty out) out := by
  unfold stripLastEmpty
  split
  · exact List.dropLast_sublist out
  · exact List.Sublist.refl out

lemma splitlines_preclean_eq (t : List Char) (minR maxL : Nat) :
    pySplitlines (preclean_text t minR maxL) = stripLastEmpty (precleanLines t minR maxL) := by
  unfold preclean_text
  exact pySplitlines_joinNL _ (precleanLines_mem_breakFree t minR maxL)

lemma keep_of_kept (t : List Char) (minR maxL : Nat) :
    ∀ l ∈ pySplitlines (preclean_text t minR maxL),
      keepDecision ((pySplitlines (preclean_text t minR maxL)).map pyStrip) minR maxL l =
        some l := by
  intro l hl
  rw [splitlines_preclean_eq] at hl
  have hl1 : l ∈ precleanLines t minR maxL :=
    (stripLastEmpty_sublist (precleanLines t minR maxL)).subset hl
  obtain ⟨a, ha, hk⟩ := List.mem_filterMap.mp (by
    unfold precleanLines at hl1
    exact hl1)
  rcases keepDecision_cases _ _ _ _ _ hk with ⟨rfl, _⟩ | ⟨rfl, hne, hfreq, hp, hd, hu⟩
  · unfold keepDecision
    rw [if_pos (show pyStrip [] = [] from rfl)]
  · refine keepDecision_keep _ minR maxL l hne ?_ hp hd hu
    rintro ⟨hlen, hcnt⟩
    apply hfreq
    refine ⟨hlen, le_trans hcnt ?_⟩
    rw [lineFreqCount_eq_count _ _ hne, lineFreqCount_eq_count _ _ hne,
        splitlines_preclean_eq]
    calc ((stripLastEmpty (precleanLines t minR maxL)).map pyStrip).count (pyStrip l)
        ≤ ((precleanLines t minR maxL).map pyStrip).count (pyStrip l) :=
          ((stripLastEmpty_sublist _).map pyStrip).count_le _
      _ ≤ ((pySplitlines t).map pyStrip).count (pyStrip l) := by
          unfold precleanLines
          exact filterMap_keep_strip_count_le _ minR maxL _ hne _

lemma filterMap_id_of_keep (f : List Char → Option (List Char)) :
    ∀ (xs : List (List Char)), (∀ x ∈ xs, f x = some x) → xs.filterMap f = xs := by
  intro xs
  induction xs with
  | nil => intro; rfl
  | cons a ls ih =>
    intro h
    rw [List.filterMap_cons, h a (List.mem_cons_self a ls),
        ih (fun x hx => h x (List.mem_cons_of_mem a hx))]

/-- C6 amended: `preclean_text` is idempotent up to the trailing-newline
normalization of the `splitlines` / `"\n".join` round trip: a second
application returns exactly the newline-join of the splitlines of the first
output (which drops one trailing blank line when the first output ends in a
newline, and changes nothing else). -/
theorem preclean_idempotent_amended :
    ∀ (text : List Char) (minRepeats maxLineLen : Nat),
      preclean_text (preclean_text text minRepeats maxLineLen) minRepeats maxLineLen =
        joinNL (pySplitlines (preclean_text text minRepeats maxLineLen)) := by
  intro t minR maxL
  have hid : precleanLines (preclean_text t minR maxL) minR maxL =
      pySplitlines (preclean_text t minR maxL) := by
    unfold precleanLines
    exact filterMap_id_of_keep _ _ (keep_of_kept t minR maxL)
  calc preclean_text (preclean_text t minR maxL) minR maxL
      = joinNL (precleanLines (preclean_text t minR maxL) minR maxL) := rfl
    _ = joinNL (pySplitlines (preclean_text t minR maxL)) := by rw [hid]

lemma count_keep_eq (norm : List (List Char)) (minR maxL : Nat) (l : List Char)
    (hne : pyStrip l ≠ [])
    (hnf : ¬((pyStrip l).length ≤ maxL ∧ minR ≤ lineFreqCount norm (pyStrip l)))
    (hp : matchPageNum (toLowerL (pyStrip l)) = false)
    (hd : matchAllDigits (pyStrip l) = false)
    (hu : matchUrl (pyStrip l) = false) :
    ∀ lines : List (List Char),
      (lines.filterMap (keepDecision norm minR maxL)).count l = lines.count l := by
  intro lines
  induction lines with
  | nil => rfl
  | cons a ls ih =>
    rw [List.filterMap_cons]
    by_cases hal : a = l
    · subst hal
      rw [keepDecision_keep norm minR maxL a hne hnf hp hd hu,
          List.count_cons, List.count_cons, ih]
    · cases hk : keepDecision norm minR maxL a with
      | none =>
        rw [List.count_cons, ih, beq_false_of_ne hal]
        simp
      | some x =>
        rcases keepDecision_cases norm minR maxL a x hk with ⟨rfl, hstrip⟩ | ⟨rfl, _⟩
        · have hlne : l ≠ [] := fun h0 => hne (by rw [h0]; rfl)
          rw [List.count_cons, List.count_cons, ih, beq_false_of_ne hal,
              beq_false_of_ne (Ne.symm hlne)]
        · rw [List.count_cons, List.count_cons, ih]

lemma countP_blank_eq (norm : List (List Char)) (minR maxL : Nat) :
    ∀ lines : List (List Char),
      (lines.filterMap (keepDecision norm minR maxL)).countP (fun x => decide (x = [])) =
        lines.countP (fun x => decide (pyStrip x = [])) := by
  intro lines
  induction lines with
  | nil => rfl
  | cons a ls ih =>
    rw [List.filterMap_cons]
    cases hk : keepDecision norm minR maxL a with
    | none =>
      have hane := keepDecision_none_strip_ne norm minR maxL a hk
      rw [List.countP_cons, ih]
      simp [hane]
    | some x =>
      rcases keepDecision_cases norm minR maxL a x hk with ⟨rfl, hstrip⟩ | ⟨rfl, hne, _⟩
      · rw [List.countP_cons, List.countP_cons, ih]
        simp [hstrip]
      · have hane : x ≠ [] := fun h0 => hne (by rw [h0]; rfl)
        rw [List.countP_cons, List.countP_cons, ih]
        simp [hane, hne]

set_option maxRecDepth 16384 in
/-- C7: `preclean_text` (through its kept-line list `precleanLines`)
(1) removes every occurrence of any line whose trimmed form is nonempty, has
length at most `max_line_len`, and occurs at least `min_repeats` times among
the document's trimmed lines; (2) keeps, with unchanged multiplicity, every
line whose trimmed form matches no removal rule (not frequent-short, not a
page number, not all digits, not a bare URL); (3) keeps one blank output line
for every input line that trims to empty; and (4) on the scenario document in
which `"Confidential"` occurs 5 times with `min_repeats = 3`, removes all 5
occurrences and leaves everything else (blank lines included) unchanged. -/
theorem preclean_removal_spec :
    ∀ (text : List Char) (minRepeats maxLineLen : Nat) (l : List Char),
      (pyStrip l ≠ [] → (pyStrip l).length ≤ maxLineLen →
        minRepeats ≤ lineFreqCount ((pySplitlines text).map pyStrip) (pyStrip l) →
        (precleanLines text minRepeats maxLineLen).count l = 0) ∧
      (pyStrip l ≠ [] →
        ¬((pyStrip l).length ≤ maxLineLen ∧
          minRepeats ≤ lineFreqCount ((pySplitlines text).map pyStrip) (pyStrip l)) →
        matchPageNum (toLowerL (pyStrip l)) = false →
        matchAllDigits (pyStrip l) = false →
        matchUrl (pyStrip l) = false →
        (precleanLines text minRepeats maxLineLen).count l =
          (pySplitlines text).count l) ∧
      ((precleanLines text minRepeats maxLineLen).countP (fun x => decide (x = [])) =
        (pySplitlines text).countP (fun x => decide (pyStrip x = []))) ∧
      preclean_text
          (S ("Confidential\nIntro text here\n\nConfidential\nBody line one\nBody line two\n\nConfidential\nMore body\nConfidential\nEnd of document\nConfidential"))
          3 80 =
        S ("Intro text here\n\nBody line one\nBody line two\n\nMore body\nEnd of document") := by
  intro t minR maxL l
  refine ⟨?_, ?_, ?_, by decide⟩
  · intro hne hlen hfreq
    rw [List.count_eq_zero]
    intro hl
    obtain ⟨a, ha, hk⟩ := List.mem_filterMap.mp (by
      unfold precleanLines at hl
      exact hl)
    rcases keepDecision_cases _ _ _ _ _ hk with ⟨rfl, hstrip⟩ | ⟨rfl, _, hnf, _, _, _⟩
    · exact hne rfl
    · exact hnf ⟨hlen, hfreq⟩
  · intro hne hnf hp hd hu
    unfold precleanLines
    exact count_keep_eq _ minR maxL l hne hnf hp hd hu _
  · unfold precleanLines
    exact countP_blank_eq _ minR maxL _

set_option maxRecDepth 16384 in
/-- Witness for C7 on the scenario document: every `"Confidential"` line is
removed and the line `"Body line one"` is kept with unchanged multiplicity. -/
theorem preclean_removal_spec_witness :
    (precleanLines
        (S ("Confidential\nIntro text here\n\nConfidential\nBody line one\nBody line two\n\nConfidential\nMore body\nConfidential\nEnd of document\nConfidential"))
        3 80).count (S ("Confidential")) = 0 ∧
    (precleanLines
        (S ("Confidential\nIntro text here\n\nConfidential\nBody line one\nBody line two\n\nConfidential\nMore body\nConfidential\nEnd of document\nConfidential"))
        3 80).count (S ("Body line one")) =
      (pySplitlines
        (S ("Confidential\nIntro text here\n\nConfidential\nBody line one\nBody line two\n\nConfidential\nMore body\nConfidential\nEnd of document\nConfidential"))).count
        (S ("Body line one")) := by
  constructor
  · exact (preclean_removal_spec
      (S ("Confidential\nIntro text here\n\nConfidential\nBody line one\nBody line two\n\nConfidential\nMore body\nConfidential\nEnd of document\nConfidential"))
      3 80 (S ("Confidential"))).1 (by decide) (by decide) (by decide)
  · exact ((preclean_removal_spec
      (S ("Confidential\nIntro text here\n\nConfidential\nBody line one\nBody line two\n\nConfidential\nMore body\nConfidential\nEnd of document\nConfidential"))
      3 80 (S ("Body line one"))).2).1 (by decide) (by decide) (by decide) (by decide)
      (by decide)
